import Mathlib

/-
Verification of prime_numbers.py (Python 2) against its specification.

The module is shallowly embedded: every function of the source is translated
to an executable Lean definition over Nat / Int / Rat / List.  The global
mutable prime list _global_sieve is threaded explicitly as a `List Nat`.

Modelling conventions, fixed once and used consistently:
* Python 2 integers are Nat (all values reaching the core functions are > 1)
  or Int at the validation boundary.
* `int(x ** 0.5)` is modelled as the integer square root pySqrt (proved equal
  to Nat.sqrt).  For every concrete input that appears below the two agree:
  the inputs are exactly representable doubles whose roots the IEEE sqrt
  computes exactly.
* The bit-vector `sieve = [0] * (n/2)` is modelled as a Nat used as a bitset:
  `sieve[j] = 1` becomes setting bit j, `sieve[j] == 0` becomes `testBit = false`.
* Python loops become structural recursions; `while` loops carry an explicit
  fuel that is always at least the number of iterations the source performs.
* Python floats are modelled as the exactly representable rationals, strings
  as `String`; `int(float)` truncates toward zero, `int(str)` parses.
-/

namespace PrimeNumbers

/-- Linear search for the integer square root: bump r while (r+1)^2 still
fits below n.  Kernel-reducible replacement for Nat.sqrt (which is defined by
well-founded recursion and does not evaluate inside decide). -/
def pySqrtAux (n : Nat) : Nat → Nat → Nat
  | r, 0 => r
  | r, fuel + 1 => if (r + 1) * (r + 1) ≤ n then pySqrtAux n (r + 1) fuel else r

/-- `int(x ** 0.5)`: the integer square root. -/
def pySqrt (n : Nat) : Nat := pySqrtAux n 0 n

/-- Reference primality test by trial division up to the square root.  Used
only on the specification side of characterization lemmas. -/
def primeb (n : Nat) : Bool :=
  decide (2 ≤ n) &&
    (List.range (pySqrt n + 1)).all (fun d => decide (d < 2) || decide (n % d ≠ 0))

/-- Inner marking loop of _prime_sieve:
`for j in xrange(j0, stop, i): sieve[j] = 1` (source lines 39-40).
The bitset is a Nat; the fuel is instantiated with `stop`, an upper bound on
the iteration count (the step is at least 1). -/
def markRange : Nat → Nat → Nat → Nat → Nat → Nat
  | s, _, _, _, 0 => s
  | s, j, step, stop, fuel + 1 =>
    if j < stop then markRange (s ||| (1 <<< j)) (j + step) step stop fuel else s

/-- Outer loop of _prime_sieve (source lines 34-40): for each odd candidate i,
if `sieve[i/2] == 0` yield i and mark `xrange(int(1.5*i), n/2, i)`.
`int(1.5*i)` is exactly `(3*i)/2`. -/
def sieveLoop : Nat → List Nat → Nat → List Nat
  | _, [], _ => []
  | stop, i :: is, s =>
    if s.testBit (i / 2) then sieveLoop stop is s
    else i :: sieveLoop stop is (markRange s ((3 * i) / 2) i stop stop)

/-- _prime_sieve(n) (source lines 23-40): yields 2, increments n, and runs the
odd-candidate loop `for i in xrange(3, int(n**0.5) + 1, 2)` over a bit-vector
of size n/2.  `xrange(3, L+1, 2)` has (L-1)/2 elements. -/
def primeSieve (n : Nat) : List Nat :=
  2 :: sieveLoop ((n + 1) / 2) (List.range' 3 ((pySqrt (n + 1) - 1) / 2) 2) 0

/-- _make_global_sieve(n) = list(_prime_sieve(n)) (source lines 65-69). -/
def makeGlobalSieve (n : Nat) : List Nat := primeSieve n

/-- The module-level cache `_global_sieve = _make_global_sieve(1000000)`
(source lines 72-73). -/
def globalSieveInit : List Nat := makeGlobalSieve 1000000

/-- `_global_sieve_max_size = 1000000` (source line 74). -/
def globalSieveMaxSize : Nat := 1000000

/-- _max_global_sieve(): `_global_sieve[-1]` (source lines 79-83). -/
def maxGlobalSieve (c : List Nat) : Nat := c.getLastD 0

/-- The loop of bisect_left: `while lo < hi: mid = (lo+hi)//2;
if a[mid] < x: lo = mid+1 else: hi = mid`.  Fuel bounds the iteration count
(the interval shrinks at every step). -/
def blGo (a : List Nat) (x : Nat) : Nat → Nat → Nat → Nat
  | lo, _, 0 => lo
  | lo, hi, fuel + 1 =>
    if lo < hi then
      if a.getD ((lo + hi) / 2) 0 < x then blGo a x ((lo + hi) / 2 + 1) hi fuel
      else blGo a x lo ((lo + hi) / 2) fuel
    else lo

/-- bisect_left(a, x) over the whole list. -/
def bisectLeft (a : List Nat) (x : Nat) : Nat := blGo a x 0 a.length (a.length + 1)

/-- _in_global_sieve(n) (source lines 85-93): if n is at most the cached
maximum, binary-search it; membership holds when the found index is in range
and stores n. -/
def inGlobalSieve (c : List Nat) (n : Nat) : Bool :=
  if n ≤ maxGlobalSieve c then
    decide (bisectLeft c n ≠ c.length) && decide (c.getD (bisectLeft c n) 0 = n)
  else false

/-- _add_to_global_sieve(n) (source lines 95-109): append when the list is
below its maximum size (the duplicate assertion holds at every call site). -/
def addToGlobalSieve (c : List Nat) (n : Nat) : List Nat :=
  if c.length < globalSieveMaxSize then c ++ [n] else c

/-- yield_til_number(number) (source lines 126-130): yield cached primes,
stopping after the first one that is ≥ number. -/
def yieldTilNumber : List Nat → Nat → List Nat
  | [], _ => []
  | p :: ps, m => if m ≤ p then [p] else p :: yieldTilNumber ps m

/-- _opt_prime_sieve(n) (source lines 111-135).  The returned Bool records
which generator was produced: `true` for yield_and_append(_prime_sieve(n))
(each consumed prime is appended to the cache when missing), `false` for
yield_til_number(n + 1) (no cache writes). -/
def optPrimeSieve (c : List Nat) (n : Nat) : List Nat × Bool :=
  if inGlobalSieve c n then (yieldTilNumber c (n + 1), false)
  else (primeSieve n, true)

/-- The cached-primes loop of is_prime (source lines 157-163): `some b` when
the loop returns b, `none` when the cache is exhausted and control falls
through to the trial-division code. -/
def isPrimeLoop (n limit : Nat) : List Nat → Option Bool
  | [] => none
  | p :: ps =>
    if limit < p then some true
    else if n % p = 0 then some false
    else isPrimeLoop n limit ps

/-- The fallback loop of is_prime (source lines 172-174):
`for f in xrange(start, limit, 6): if number % f == 0 or number % (f+4) == 0:
return False`, fuel bounding the iteration count. -/
def trialRange (n limit : Nat) : Nat → Nat → Bool
  | _, 0 => true
  | f, fuel + 1 =>
    if f < limit then
      if n % f = 0 || n % (f + 4) = 0 then false else trialRange n limit (f + 6) fuel
    else true

/-- is_prime(number), after validation (source lines 145-175). -/
def isPrime (c : List Nat) (n : Nat) : Bool :=
  if inGlobalSieve c n then true
  else
    match isPrimeLoop n (pySqrt n) c with
    | some b => b
    | none =>
      if (maxGlobalSieve c + 2) % 3 = 0 then
        if n % maxGlobalSieve c = 0 then false
        else trialRange n (pySqrt n) (maxGlobalSieve c + 4) (pySqrt n)
      else trialRange n (pySqrt n) (maxGlobalSieve c) (pySqrt n)

/-- add_factor(f) (source lines 187-190): the factor dictionary is an
association list with distinct keys; a present key has its exponent bumped,
an absent key is inserted with exponent 1. -/
def addFactor : List (Nat × Nat) → Nat → List (Nat × Nat)
  | [], f => [(f, 1)]
  | (k, e) :: fs, f => if k = f then (k, e + 1) :: fs else (k, e) :: addFactor fs f

/-- `while n % p == 0: add_factor(p); n //= p` (source lines 195-197).
The fuel is instantiated with the current n, an upper bound on the number of
divisions since every division at least halves n. -/
def whileDivide (p : Nat) : Nat → Nat → List (Nat × Nat) → Nat × List (Nat × Nat)
  | 0, n, fs => (n, fs)
  | fuel + 1, n, fs =>
    if n % p = 0 then whileDivide p fuel (n / p) (addFactor fs p) else (n, fs)

/-- The `for p in primes` loop of _trial_division_decompose (source lines
192-197) fused with the generator semantics of _opt_prime_sieve: pulling the
next prime p first runs the yield_and_append side effect (when appendMode is
set), then the loop body breaks on `p*p > n` or divides n by p. -/
def decomposeLoop (appendMode : Bool) :
    List Nat → Nat → List (Nat × Nat) → List Nat → List (Nat × Nat) × Nat × List Nat
  | [], n, fs, c => (fs, n, c)
  | p :: ps, n, fs, c =>
    let c1 := if appendMode && !(inGlobalSieve c p) then addToGlobalSieve c p else c
    if n < p * p then (fs, n, c1)
    else
      let r := whileDivide p n n fs
      decomposeLoop appendMode ps r.1 r.2 c1

/-- _trial_division_decompose(n) (source lines 177-201), returning the factor
map together with the cache as left after the lazy consumption of
_opt_prime_sieve(n). -/
def trialDivisionDecompose (c : List Nat) (n : Nat) : List (Nat × Nat) × List Nat :=
  let pr := optPrimeSieve c n
  let r := decomposeLoop pr.2 pr.1 n [] c
  (if 1 < r.2.1 then addFactor r.1 r.2.1 else r.1, r.2.2)

/-- Product of the factor map: each key raised to its exponent. -/
def prodFactors (fs : List (Nat × Nat)) : Nat :=
  fs.foldr (fun q a => q.1 ^ q.2 * a) 1

/-- Python values that can reach the public entry points: machine integers,
floats (the exactly representable rationals) and strings. -/
inductive PyValue
  | int : Int → PyValue
  | float : Rat → PyValue
  | str : String → PyValue
deriving DecidableEq

/-- The two exception kinds distinguished by the validation decorator. -/
inductive PyError
  | typeError
  | valueError
deriving DecidableEq

/-- `int(float)` truncates toward zero. -/
def pyTruncRat (q : Rat) : Int := q.num.tdiv (q.den : Int)

/-- `int(str)`: parse an optionally signed decimal literal, `none` when the
ValueError of a failed conversion is raised. -/
def pyStrToInt (s : String) : Option Int := s.toInt?

/-- `int(number)` on the three value kinds; `none` models the ValueError
caught by the decorator. -/
def pyToInt : PyValue → Option Int
  | .int n => some n
  | .float q => some (pyTruncRat q)
  | .str s => pyStrToInt s

/-- Python 2 equality `n == number` between the converted int and the original
value: exact numeric equality against floats, never true against strings
(Python 2 compares mismatched types by type name). -/
def pyEqInt (n : Int) : PyValue → Bool
  | .int m => decide (n = m)
  | .float q => decide ((n : Rat) = q)
  | .str _ => false

/-- The closure of checks_factorizable_number (source lines 52-62): convert
to int (TypeError when int() raises), TypeError when the conversion is not
lossless, ValueError when the integer is at most 1, otherwise pass n on. -/
def checksFactorizableNumber (v : PyValue) : Except PyError Int :=
  match pyToInt v with
  | none => .error .typeError
  | some n =>
    if !(pyEqInt n v) then .error .typeError
    else if n ≤ 1 then .error .valueError
    else .ok n

/-- A call of the decorated is_prime: state before the call, validated input,
state after the call paired with the outcome.  The validated integer exceeds
1, so the passage to Nat is lossless.  is_prime (source lines 145-175)
contains no write to _global_sieve, so the state passes through. -/
def isPrimeCall (c : List Nat) (v : PyValue) : List Nat × Except PyError Bool :=
  match checksFactorizableNumber v with
  | .error e => (c, .error e)
  | .ok n => (c, .ok (isPrime c n.toNat))

/-- A call of the decorated decompose (source lines 203-212): on validation
failure the exception propagates with the cache untouched, otherwise
_trial_division_decompose runs on the validated integer (which exceeds 1, so
the passage to Nat is lossless) and may extend the cache. -/
def decomposeCall (c : List Nat) (v : PyValue) :
    List Nat × Except PyError (List (Nat × Nat)) :=
  match checksFactorizableNumber v with
  | .error e => (c, .error e)
  | .ok n =>
    let r := trialDivisionDecompose c n.toNat
    (r.2, .ok r.1)

/-- One public API call with its argument. -/
inductive PyOp
  | isPrimeOp : PyValue → PyOp
  | decomposeOp : PyValue → PyOp

/-- Effect of one call on the module state. -/
def stepOp (c : List Nat) : PyOp → List Nat
  | .isPrimeOp v => (isPrimeCall c v).1
  | .decomposeOp v => (decomposeCall c v).1

/-- Module state after a sequence of public API calls. -/
def runOps : List Nat → List PyOp → List Nat
  | c, [] => c
  | c, op :: ops => runOps (stepOp c op) ops

/-- Ascending list of all primes up to b: 2 followed by the odd primes of
[3, b].  `xrange(3, b + 1, 2)` has (b - 1) / 2 elements. -/
def primesUpTo (b : Nat) : List Nat :=
  2 :: (List.range' 3 ((b - 1) / 2) 2).filter primeb

/-- Index j of the bitset stands for the odd number 2j+1; after the outer
sieve loop has processed all odd candidates below i0, bit j is set exactly
when 2j+1 is an odd multiple p*k (k odd, k ≥ 3) of an odd prime p < i0
whose index fits below stop. -/
def MarkedBy (stop i0 j : Nat) : Prop :=
  ∃ p k, Nat.Prime p ∧ p % 2 = 1 ∧ p < i0 ∧ k % 2 = 1 ∧ 3 ≤ k ∧
    j = (p * k) / 2 ∧ j < stop

/-- The bitset s is in the state the sieve reaches after processing all odd
candidates below i0. -/
def SieveInv (stop i0 s : Nat) : Prop :=
  ∀ j, s.testBit j = true ↔ MarkedBy stop i0 j

/-- Every prime missing from the cache is larger than every cached element
(so the cache is a complete initial segment of the primes). -/
def Misses (c : List Nat) : Prop :=
  ∀ q, Nat.Prime q → q ∉ c → ∀ x ∈ c, x < q

/-- Invariant of the global sieve cache: strictly increasing, all prime,
complete up to its last element, within the size bound. -/
def CacheInv (c : List Nat) : Prop :=
  c.Pairwise (· < ·) ∧ (∀ x ∈ c, Nat.Prime x) ∧ Misses c ∧
    c.length ≤ globalSieveMaxSize

/-- Relation between the cache and the not-yet-consumed candidate primes of
a fresh sieve run: candidates ascend, are prime, and every prime missing
from the cache either is still pending or lies beyond all pending ones. -/
def PsOk (c ps : List Nat) : Prop :=
  ps.Pairwise (· < ·) ∧ (∀ p ∈ ps, Nat.Prime p) ∧
    (∀ q, Nat.Prime q → q ∉ c → q ∈ ps ∨ (∀ p ∈ ps, p < q))

/-! Square root -/

theorem pySqrtAux_spec (n : Nat) :
    ∀ fuel r, r * r ≤ n → n < (r + fuel + 1) * (r + fuel + 1) →
      pySqrtAux n r fuel * pySqrtAux n r fuel ≤ n ∧
        n < (pySqrtAux n r fuel + 1) * (pySqrtAux n r fuel + 1) := by
  intro fuel
  induction fuel with
  | zero =>
    intro r h1 h2
    simp only [pySqrtAux]
    exact ⟨h1, by simpa using h2⟩
  | succ fuel ih =>
    intro r h1 h2
    simp only [pySqrtAux]
    split
    next h =>
      apply ih
      · exact h
      · have heq : r + 1 + fuel + 1 = r + (fuel + 1) + 1 := by omega
        rw [heq]
        exact h2
    next h =>
      exact ⟨h1, Nat.lt_of_not_le h⟩

theorem pySqrt_eq (n : Nat) : pySqrt n = Nat.sqrt n := by
  have h := pySqrtAux_spec n n 0 (by simp) (by nlinarith)
  exact Nat.eq_sqrt.mpr ⟨h.1, h.2⟩

/-! Characterization of the reference primality test -/

theorem primeb_iff (n : Nat) : primeb n = true ↔ Nat.Prime n := by
  rw [Nat.prime_def_le_sqrt]
  simp only [primeb, Bool.and_eq_true, decide_eq_true_eq, List.all_eq_true,
    List.mem_range, Bool.or_eq_true, pySqrt_eq]
  constructor
  · rintro ⟨h2, hall⟩
    refine ⟨h2, fun m hm hms hdvd => ?_⟩
    rcases hall m (by omega) with h | h
    · omega
    · exact h (Nat.dvd_iff_mod_eq_zero.mp hdvd)
  · rintro ⟨h2, hmin⟩
    refine ⟨h2, fun d hd => ?_⟩
    by_cases hd2 : d < 2
    · exact Or.inl hd2
    · exact Or.inr fun hmod =>
        hmin d (by omega) (by omega) (Nat.dvd_iff_mod_eq_zero.mpr hmod)

/-! Marking loop characterization -/

theorem markRange_testBit (step : Nat) (hstep : 0 < step) :
    ∀ fuel s j0 stop, stop ≤ j0 + fuel →
      ∀ j, (markRange s j0 step stop fuel).testBit j = true ↔
        (s.testBit j = true ∨ ∃ t, j = j0 + step * t ∧ j < stop) := by
  intro fuel
  induction fuel with
  | zero =>
    intro s j0 stop hf j
    simp only [markRange]
    constructor
    · exact Or.inl
    · rintro (h | ⟨t, rfl, hlt⟩)
      · exact h
      · exfalso
        have := Nat.zero_le (step * t)
        omega
  | succ fuel ih =>
    intro s j0 stop hf j
    simp only [markRange]
    split
    next hlt =>
      rw [ih _ _ _ (by omega)]
      have hbit : (s ||| 1 <<< j0).testBit j = (s.testBit j || decide (j0 = j)) := by
        rw [Nat.testBit_lor]
        congr 1
        rw [Nat.shiftLeft_eq, one_mul, Nat.testBit_two_pow]
      rw [hbit]
      simp only [Bool.or_eq_true, decide_eq_true_eq]
      constructor
      · rintro ((h | rfl) | ⟨t, rfl, hj⟩)
        · exact Or.inl h
        · exact Or.inr ⟨0, by simp, hlt⟩
        · exact Or.inr ⟨t + 1, by ring, hj⟩
      · rintro (h | ⟨t, rfl, hj⟩)
        · exact Or.inl (Or.inl h)
        · cases t with
          | zero => exact Or.inl (Or.inr (by simp))
          | succ t => exact Or.inr ⟨t, by ring, hj⟩
    next hge =>
      constructor
      · exact Or.inl
      · rintro (h | ⟨t, rfl, hlt⟩)
        · exact h
        · exfalso
          have := Nat.zero_le (step * t)
          omega

/-! Odd arithmetic helpers -/

theorem odd_mark_index (i t : Nat) : (3 * i) / 2 + i * t = (i * (3 + 2 * t)) / 2 := by
  have h : i * (3 + 2 * t) = 3 * i + (i * t) * 2 := by ring
  rw [h, Nat.add_mul_div_right _ _ (by omega : (0 : Nat) < 2)]

theorem prime_odd_ge3 (p : Nat) (hp : Nat.Prime p) (hodd : p % 2 = 1) : 3 ≤ p := by
  have := hp.two_le
  omega

theorem odd_composite_split (a : Nat) (ha : a % 2 = 1) (h3 : 3 ≤ a)
    (hnp : ¬ Nat.Prime a) :
    ∃ p k, Nat.Prime p ∧ p % 2 = 1 ∧ p < a ∧ k % 2 = 1 ∧ 3 ≤ k ∧ a = p * k := by
  have ha1 : a ≠ 1 := by omega
  have hp := Nat.minFac_prime ha1
  have hdvd := Nat.minFac_dvd a
  have hamod : a % a.minFac = 0 := Nat.mod_eq_zero_of_dvd hdvd
  have hodd : a.minFac % 2 = 1 := by
    rcases Nat.mod_two_eq_zero_or_one a.minFac with h | h
    · exfalso
      have h2 : (2 : Nat) ∣ a.minFac := Nat.dvd_of_mod_eq_zero h
      have h2a : a % 2 = 0 := Nat.mod_eq_zero_of_dvd (h2.trans hdvd)
      omega
    · exact h
  have hkmul : a.minFac * (a / a.minFac) = a := Nat.mul_div_cancel' hdvd
  have hkge : a.minFac ≤ a / a.minFac := Nat.minFac_le_div (by omega) hnp
  have hmf3 : 3 ≤ a.minFac := prime_odd_ge3 _ hp hodd
  have hlt : a.minFac < a := by
    have hle : a.minFac ≤ a := Nat.le_of_dvd (by omega) hdvd
    rcases Nat.lt_or_ge a.minFac a with h | h
    · exact h
    · exfalso
      have heq : a.minFac = a := by omega
      rw [heq] at hp
      exact hnp hp
  have hkodd : (a / a.minFac) % 2 = 1 := by
    rcases Nat.mod_two_eq_zero_or_one (a / a.minFac) with h | h
    · exfalso
      obtain ⟨m, hm⟩ := Nat.dvd_of_mod_eq_zero h
      have hae : a = 2 * (a.minFac * m) := by
        calc a = a.minFac * (a / a.minFac) := hkmul.symm
          _ = a.minFac * (2 * m) := by rw [hm]
          _ = 2 * (a.minFac * m) := by ring
      omega
    · exact h
  exact ⟨a.minFac, a / a.minFac, hp, hodd, hlt, hkodd, by omega, hkmul.symm⟩

theorem markedBy_of_composite (stop a : Nat) (ha : a % 2 = 1) (_h3 : 3 ≤ a)
    (hnp : ¬ Nat.Prime a) (hbound : a ≤ 2 * stop) : MarkedBy stop a (a / 2) := by
  obtain ⟨p, k, hp, hpodd, hplt, hkodd, hk3, heq⟩ := odd_composite_split a ha _h3 hnp
  exact ⟨p, k, hp, hpodd, hplt, hkodd, hk3, by rw [← heq], by omega⟩

theorem not_prime_of_markedBy (stop a : Nat) (ha : a % 2 = 1) (_h3 : 3 ≤ a)
    (hm : MarkedBy stop a (a / 2)) : ¬ Nat.Prime a := by
  obtain ⟨p, k, hp, hpodd, hplt, hkodd, hk3, heq, _⟩ := hm
  have hpk : (p * k) % 2 = 1 := by
    rw [Nat.mul_mod, hpodd, hkodd]
  have hpka : p * k = a := by omega
  intro hprime
  have hdvd : p ∣ a := ⟨k, hpka.symm⟩
  rcases (Nat.Prime.eq_one_or_self_of_dvd hprime p hdvd) with h1 | hself
  · exact Nat.Prime.one_lt hp |>.ne h1.symm
  · omega

/-! The outer sieve loop yields exactly the odd primes of its range -/

theorem markedBy_succ2 (stop a j : Nat) (ha : a % 2 = 1) :
    MarkedBy stop (a + 2) j ↔
      (MarkedBy stop a j ∨
        (Nat.Prime a ∧ ∃ t, j = (3 * a) / 2 + a * t ∧ j < stop)) := by
  constructor
  · rintro ⟨p, k, hp, hpodd, hplt, hkodd, hk3, hj, hjst⟩
    rcases Nat.lt_or_ge p a with h | h
    · exact Or.inl ⟨p, k, hp, hpodd, h, hkodd, hk3, hj, hjst⟩
    · have hpa : p = a := by omega
      subst hpa
      refine Or.inr ⟨hp, (k - 3) / 2, ?_, hjst⟩
      have hk : k = 3 + 2 * ((k - 3) / 2) := by omega
      rw [odd_mark_index, ← hk]
      exact hj
  · rintro (⟨p, k, hp, hpodd, hplt, hkodd, hk3, hj, hjst⟩ | ⟨hprime, t, hj, hjst⟩)
    · exact ⟨p, k, hp, hpodd, by omega, hkodd, hk3, hj, hjst⟩
    · exact ⟨a, 3 + 2 * t, hprime, ha, by omega, by omega, by omega,
        by rw [hj, odd_mark_index], hjst⟩

theorem sieveLoop_filter (stop : Nat) :
    ∀ cnt a s, a % 2 = 1 → 3 ≤ a → SieveInv stop a s →
      (∀ i, i ∈ List.range' a cnt 2 → i ≤ 2 * stop) →
      sieveLoop stop (List.range' a cnt 2) s = (List.range' a cnt 2).filter primeb := by
  intro cnt
  induction cnt with
  | zero =>
    intro a s _ _ _ _
    rfl
  | succ cnt ih =>
    intro a s ha h3 inv hbound
    rw [List.range'_succ]
    have hba : a ≤ 2 * stop := by
      apply hbound
      rw [List.range'_succ]
      exact List.mem_cons_self _ _
    have htail : ∀ i, i ∈ List.range' (a + 2) cnt 2 → i ≤ 2 * stop := by
      intro i hi
      apply hbound
      rw [List.range'_succ]
      exact List.mem_cons_of_mem _ hi
    by_cases hp : Nat.Prime a
    · have hbit : s.testBit (a / 2) = false := by
        rw [Bool.eq_false_iff]
        intro h
        exact not_prime_of_markedBy stop a ha h3 ((inv _).mp h) hp
      simp only [sieveLoop, hbit, Bool.false_eq_true, if_false]
      rw [List.filter_cons_of_pos (by rw [primeb_iff]; exact hp)]
      congr 1
      apply ih (a + 2) _ (by omega) (by omega) _ htail
      intro j
      rw [markRange_testBit a (by omega) stop _ _ _ (by omega) j,
        markedBy_succ2 stop a j ha, inv j]
      constructor
      · rintro (h | ⟨t, hj, hjst⟩)
        · exact Or.inl h
        · exact Or.inr ⟨hp, t, hj, hjst⟩
      · rintro (h | ⟨_, t, hj, hjst⟩)
        · exact Or.inl h
        · exact Or.inr ⟨t, hj, hjst⟩
    · have hbit : s.testBit (a / 2) = true :=
        (inv _).mpr (markedBy_of_composite stop a ha h3 hp hba)
      simp only [sieveLoop, hbit, if_true]
      rw [List.filter_cons_of_neg (by rw [primeb_iff]; exact hp)]
      apply ih (a + 2) s (by omega) (by omega) _ htail
      intro j
      rw [inv j, markedBy_succ2 stop a j ha]
      constructor
      · exact Or.inl
      · rintro (h | ⟨hprime, _⟩)
        · exact h
        · exact absurd hprime hp

theorem primeSieve_eq (n : Nat) : primeSieve n = primesUpTo (pySqrt (n + 1)) := by
  unfold primeSieve primesUpTo
  congr 1
  apply sieveLoop_filter ((n + 1) / 2) ((pySqrt (n + 1) - 1) / 2) 3 0 (by omega) (by omega)
  · intro j
    simp only [Nat.zero_testBit, Bool.false_eq_true, false_iff]
    rintro ⟨p, k, hp, hpodd, hplt, _, _, _, _⟩
    have := prime_odd_ge3 p hp hpodd
    omega
  · intro i hi
    rw [List.mem_range'] at hi
    obtain ⟨t, ht, rfl⟩ := hi
    have hiL : 3 + 2 * t ≤ pySqrt (n + 1) := by omega
    have hLL : pySqrt (n + 1) * pySqrt (n + 1) ≤ n + 1 := by
      rw [pySqrt_eq]
      exact Nat.sqrt_le (n + 1)
    have h3L : 3 ≤ pySqrt (n + 1) := by omega
    have h3LL : 3 * pySqrt (n + 1) ≤ pySqrt (n + 1) * pySqrt (n + 1) :=
      Nat.mul_le_mul_right _ h3L
    omega

/-! Properties of primesUpTo -/

theorem pairwise_range' : ∀ cnt a, (List.range' a cnt 2).Pairwise (· < ·) := by
  intro cnt
  induction cnt with
  | zero => intro a; simp
  | succ cnt ih =>
    intro a
    rw [List.range'_succ]
    refine List.pairwise_cons.mpr ⟨?_, ih (a + 2)⟩
    intro b hb
    rw [List.mem_range'] at hb
    obtain ⟨t, _, rfl⟩ := hb
    omega

theorem primesUpTo_pairwise (b : Nat) : (primesUpTo b).Pairwise (· < ·) := by
  refine List.pairwise_cons.mpr ⟨?_, List.Pairwise.filter _ (pairwise_range' _ 3)⟩
  intro x hx
  rw [List.mem_filter, List.mem_range'] at hx
  obtain ⟨⟨t, _, rfl⟩, _⟩ := hx
  omega

theorem mem_primesUpTo (b x : Nat) :
    x ∈ primesUpTo b ↔ (x = 2 ∨ (Nat.Prime x ∧ x % 2 = 1 ∧ x ≤ b)) := by
  simp only [primesUpTo, List.mem_cons, List.mem_filter, List.mem_range']
  constructor
  · rintro (rfl | ⟨⟨t, ht, rfl⟩, hpb⟩)
    · exact Or.inl rfl
    · exact Or.inr ⟨(primeb_iff _).mp hpb, by omega, by omega⟩
  · rintro (rfl | ⟨hp, hodd, hxb⟩)
    · exact Or.inl rfl
    · have h3 : 3 ≤ x := prime_odd_ge3 x hp hodd
      refine Or.inr ⟨⟨(x - 3) / 2, by omega, by omega⟩, (primeb_iff _).mpr hp⟩

theorem mem_primesUpTo_iff (b x : Nat) (hb : 2 ≤ b) :
    x ∈ primesUpTo b ↔ (Nat.Prime x ∧ x ≤ b) := by
  rw [mem_primesUpTo]
  constructor
  · rintro (rfl | ⟨hp, _, hxb⟩)
    · exact ⟨Nat.prime_two, hb⟩
    · exact ⟨hp, hxb⟩
  · rintro ⟨hp, hxb⟩
    rcases hp.eq_two_or_odd with rfl | hodd
    · exact Or.inl rfl
    · exact Or.inr ⟨hp, hodd, hxb⟩

theorem primesUpTo_prime (b x : Nat) (hx : x ∈ primesUpTo b) : Nat.Prime x := by
  rcases (mem_primesUpTo b x).mp hx with rfl | ⟨hp, _, _⟩
  · exact Nat.prime_two
  · exact hp

theorem primesUpTo_ub (b x : Nat) (hx : x ∈ primesUpTo b) : x ≤ max 2 b := by
  rcases (mem_primesUpTo b x).mp hx with rfl | ⟨_, _, hxb⟩
  · exact le_max_left 2 b
  · exact le_trans hxb (le_max_right 2 b)

/-! The initial cache -/

set_option maxRecDepth 40000 in
theorem pySqrt_1000001 : pySqrt 1000001 = 1000 := by decide

theorem globalSieveInit_eq : globalSieveInit = primesUpTo 1000 := by
  unfold globalSieveInit makeGlobalSieve
  rw [primeSieve_eq, show (1000000 + 1 : Nat) = 1000001 from rfl, pySqrt_1000001]

theorem globalSieveInit_length : globalSieveInit.length ≤ 500 := by
  rw [globalSieveInit_eq]
  have h := List.length_filter_le primeb (List.range' 3 ((1000 - 1) / 2) 2)
  simp only [List.length_range'] at h
  simp only [primesUpTo, List.length_cons]
  omega

theorem cacheInv_init : CacheInv globalSieveInit := by
  refine ⟨?_, ?_, ?_, ?_⟩
  · rw [globalSieveInit_eq]; exact primesUpTo_pairwise 1000
  · rw [globalSieveInit_eq]
    intro x hx
    exact primesUpTo_prime _ _ hx
  · rw [globalSieveInit_eq]
    intro q hq hqmem x hx
    have hxb : x ≤ max 2 1000 := primesUpTo_ub _ _ hx
    have hqb : ¬ (q ≤ 1000) := fun hle =>
      hqmem ((mem_primesUpTo_iff 1000 q (by omega)).mpr ⟨hq, hle⟩)
    norm_num at hxb
    omega
  · have := globalSieveInit_length
    unfold globalSieveMaxSize
    omega

/-! Binary search -/

theorem getD_lt_getD (a : List Nat) (ha : a.Pairwise (· < ·)) (i j : Nat)
    (hij : i < j) (hj : j < a.length) : a.getD i 0 < a.getD j 0 := by
  have hi : i < a.length := by omega
  have h := List.pairwise_iff_getElem.mp ha i j hi hj hij
  simpa [List.getD_eq_getElem?_getD, List.getElem?_eq_getElem, hi, hj] using h

theorem getD_mem (a : List Nat) (i : Nat) (hi : i < a.length) : a.getD i 0 ∈ a := by
  have h : a.getD i 0 = a[i] := by
    simp [List.getD_eq_getElem?_getD, List.getElem?_eq_getElem, hi]
  rw [h]
  exact List.getElem_mem hi

theorem blGo_bounds (a : List Nat) (x : Nat) :
    ∀ fuel lo hi, lo ≤ hi → lo ≤ blGo a x lo hi fuel ∧ blGo a x lo hi fuel ≤ hi := by
  intro fuel
  induction fuel with
  | zero => intro lo hi h; exact ⟨Nat.le_refl _, h⟩
  | succ fuel ih =>
    intro lo hi h
    simp only [blGo]
    split
    next hlt =>
      split
      next =>
        have := ih ((lo + hi) / 2 + 1) hi (by omega)
        omega
      next =>
        have := ih lo ((lo + hi) / 2) (by omega)
        omega
    next => exact ⟨Nat.le_refl _, h⟩

theorem blGo_spec (a : List Nat) (x : Nat) (ha : a.Pairwise (· < ·)) :
    ∀ fuel lo hi, lo ≤ hi → hi ≤ a.length → hi - lo ≤ fuel →
      (∀ k, k < lo → a.getD k 0 < x) →
      (∀ k, hi ≤ k → k < a.length → x ≤ a.getD k 0) →
      (∀ k, k < blGo a x lo hi fuel → a.getD k 0 < x) ∧
        (∀ k, blGo a x lo hi fuel ≤ k → k < a.length → x ≤ a.getD k 0) := by
  intro fuel
  induction fuel with
  | zero =>
    intro lo hi hlohi hhilen hfuel pre1 pre2
    simp only [blGo]
    exact ⟨fun k hk => pre1 k hk, fun k hk hklen => pre2 k (by omega) hklen⟩
  | succ fuel ih =>
    intro lo hi hlohi hhilen hfuel pre1 pre2
    simp only [blGo]
    split
    next hlt =>
      split
      next hmid =>
        apply ih ((lo + hi) / 2 + 1) hi (by omega) hhilen (by omega)
        · intro k hk
          rcases Nat.lt_or_ge k lo with h | h
          · exact pre1 k h
          · rcases Nat.lt_or_ge k ((lo + hi) / 2) with h2 | h2
            · exact lt_trans (getD_lt_getD a ha k _ h2 (by omega)) hmid
            · have hk2 : k = (lo + hi) / 2 := by omega
              rw [hk2]
              exact hmid
        · exact pre2
      next hmid =>
        apply ih lo ((lo + hi) / 2) (by omega) (by omega) (by omega) pre1
        intro k hk hklen
        rcases Nat.lt_or_ge k ((lo + hi) / 2 + 1) with h | h
        · have hk2 : k = (lo + hi) / 2 := by omega
          rw [hk2]
          omega
        · have := getD_lt_getD a ha ((lo + hi) / 2) k (by omega) hklen
          omega
    next hge =>
      exact ⟨fun k hk => pre1 k (by omega), fun k hk hklen => pre2 k (by omega) hklen⟩

theorem bisectLeft_spec (a : List Nat) (x : Nat) (ha : a.Pairwise (· < ·)) :
    (∀ k, k < bisectLeft a x → a.getD k 0 < x) ∧
      (∀ k, bisectLeft a x ≤ k → k < a.length → x ≤ a.getD k 0) ∧
      bisectLeft a x ≤ a.length := by
  have h := blGo_spec a x ha (a.length + 1) 0 a.length (Nat.zero_le _) (Nat.le_refl _)
    (by omega) (fun k hk => absurd hk (Nat.not_lt_zero k)) (fun k hk hklen => by omega)
  have hb := blGo_bounds a x (a.length + 1) 0 a.length (Nat.zero_le _)
  exact ⟨h.1, h.2, hb.2⟩

theorem le_maxGlobalSieve (c : List Nat) (hc : c.Pairwise (· < ·)) (x : Nat)
    (hx : x ∈ c) : x ≤ maxGlobalSieve c := by
  obtain ⟨i, hi, hieq⟩ := List.mem_iff_getElem.mp hx
  have hgetD : c.getD i 0 = x := by
    simp [List.getD_eq_getElem?_getD, List.getElem?_eq_getElem, hi, hieq]
  have hmax : maxGlobalSieve c = c.getD (c.length - 1) 0 := by
    unfold maxGlobalSieve
    simp [List.getLastD_eq_getLast?, List.getLast?_eq_getElem?,
      List.getD_eq_getElem?_getD]
  rcases Nat.lt_or_ge i (c.length - 1) with h | h
  · have := getD_lt_getD c hc i (c.length - 1) h (by omega)
    omega
  · have hieq2 : i = c.length - 1 := by omega
    rw [hmax, ← hieq2, hgetD]

theorem inGlobalSieve_iff (c : List Nat) (hc : c.Pairwise (· < ·)) (n : Nat) :
    inGlobalSieve c n = true ↔ n ∈ c := by
  obtain ⟨h1, h2, h3⟩ := bisectLeft_spec c n hc
  unfold inGlobalSieve
  constructor
  · intro h
    split at h
    · simp only [Bool.and_eq_true, decide_eq_true_eq] at h
      obtain ⟨hne, heq⟩ := h
      have hrlen : bisectLeft c n < c.length := by omega
      rw [← heq]
      exact getD_mem c _ hrlen
    · simp at h
  · intro hmem
    have hle : n ≤ maxGlobalSieve c := le_maxGlobalSieve c hc n hmem
    rw [if_pos hle]
    obtain ⟨i, hi, hieq⟩ := List.mem_iff_getElem.mp hmem
    have hgetD : c.getD i 0 = n := by
      simp [List.getD_eq_getElem?_getD, List.getElem?_eq_getElem, hi, hieq]
    have hri : bisectLeft c n ≤ i := by
      by_contra hlt
      push_neg at hlt
      have := h1 i hlt
      omega
    have hreq : bisectLeft c n = i := by
      rcases Nat.lt_or_ge (bisectLeft c n) i with h | h
      · exfalso
        have hx1 := h2 (bisectLeft c n) (Nat.le_refl _) (by omega)
        have hx2 := getD_lt_getD c hc (bisectLeft c n) i h hi
        omega
      · omega
    simp only [Bool.and_eq_true, decide_eq_true_eq]
    exact ⟨by omega, by rw [hreq]; exact hgetD⟩

/-! Factor products -/

theorem prodFactors_nil : prodFactors [] = 1 := rfl

theorem prodFactors_cons (k e : Nat) (fs : List (Nat × Nat)) :
    prodFactors ((k, e) :: fs) = k ^ e * prodFactors fs := rfl

theorem prodFactors_addFactor (fs : List (Nat × Nat)) (f : Nat) :
    prodFactors (addFactor fs f) = f * prodFactors fs := by
  induction fs with
  | nil => simp [addFactor, prodFactors_cons, prodFactors_nil, pow_one]
  | cons q fs ih =>
    obtain ⟨k, e⟩ := q
    simp only [addFactor]
    split
    next h =>
      subst h
      rw [prodFactors_cons, prodFactors_cons, pow_succ]
      ring
    next h =>
      rw [prodFactors_cons, prodFactors_cons, ih]
      ring

theorem whileDivide_spec (p : Nat) :
    ∀ fuel n fs, 1 ≤ n →
      1 ≤ (whileDivide p fuel n fs).1 ∧
        prodFactors (whileDivide p fuel n fs).2 * (whileDivide p fuel n fs).1 =
          prodFactors fs * n := by
  intro fuel
  induction fuel with
  | zero => intro n fs h; exact ⟨h, rfl⟩
  | succ fuel ih =>
    intro n fs h
    simp only [whileDivide]
    split
    next hmod =>
      have hp0 : p ≠ 0 := by
        rintro rfl
        rw [Nat.mod_zero] at hmod
        omega
      have hdvd : p ∣ n := Nat.dvd_of_mod_eq_zero hmod
      have hple : p ≤ n := Nat.le_of_dvd (by omega) hdvd
      have hq1 : 1 ≤ n / p := (Nat.one_le_div_iff (by omega)).mpr hple
      obtain ⟨ih1, ih2⟩ := ih (n / p) (addFactor fs p) hq1
      refine ⟨ih1, ?_⟩
      rw [ih2, prodFactors_addFactor]
      have hcan : p * (n / p) = n := Nat.mul_div_cancel' hdvd
      rw [mul_comm p (prodFactors fs), mul_assoc, hcan]
    next => exact ⟨h, rfl⟩

theorem whileDivide_fuel_adequate (p : Nat) (hp : 2 ≤ p) :
    ∀ fuel n fs, 1 ≤ n → n ≤ fuel → (whileDivide p fuel n fs).1 % p ≠ 0 := by
  intro fuel
  induction fuel with
  | zero => intro n fs h1 h2; omega
  | succ fuel ih =>
    intro n fs h1 h2
    simp only [whileDivide]
    split
    next hmod =>
      have hdvd : p ∣ n := Nat.dvd_of_mod_eq_zero hmod
      have hple : p ≤ n := Nat.le_of_dvd (by omega) hdvd
      have hq1 : 1 ≤ n / p := (Nat.one_le_div_iff (by omega)).mpr hple
      have hhalf : n / p ≤ n / 2 := Nat.div_le_div_left hp (by omega)
      have hlt : n / 2 < n := Nat.div_lt_self (by omega) (by omega)
      exact ih (n / p) (addFactor fs p) hq1 (by omega)
    next hmod => exact hmod

theorem decomposeLoop_spec (am : Bool) :
    ∀ ps n fs c, 1 ≤ n →
      1 ≤ (decomposeLoop am ps n fs c).2.1 ∧
        prodFactors (decomposeLoop am ps n fs c).1 * (decomposeLoop am ps n fs c).2.1 =
          prodFactors fs * n := by
  intro ps
  induction ps with
  | nil => intro n fs c h; exact ⟨h, rfl⟩
  | cons p ps ih =>
    intro n fs c h
    simp only [decomposeLoop]
    split
    next => exact ⟨h, rfl⟩
    next =>
      obtain ⟨h1, h2⟩ := whileDivide_spec p n n fs h
      obtain ⟨g1, g2⟩ := ih (whileDivide p n n fs).1 (whileDivide p n n fs).2 _ h1
      exact ⟨g1, by rw [g2, h2]⟩

/-! Cache effects of the decompose loop -/

theorem decomposeLoop_cache_false :
    ∀ ps n fs c, (decomposeLoop false ps n fs c).2.2 = c := by
  intro ps
  induction ps with
  | nil => intro n fs c; rfl
  | cons p ps ih =>
    intro n fs c
    simp only [decomposeLoop, Bool.false_and, Bool.false_eq_true, if_false]
    split
    next => rfl
    next => exact ih _ _ _

theorem addToGlobalSieve_full (c : List Nat) (p : Nat)
    (h : globalSieveMaxSize ≤ c.length) : addToGlobalSieve c p = c := by
  unfold addToGlobalSieve
  rw [if_neg (by omega)]

theorem decomposeLoop_cache_full :
    ∀ ps n fs c, globalSieveMaxSize ≤ c.length →
      (decomposeLoop true ps n fs c).2.2 = c := by
  intro ps
  induction ps with
  | nil => intro n fs c _; rfl
  | cons p ps ih =>
    intro n fs c hlen
    have hc1 : (if true && !(inGlobalSieve c p) then addToGlobalSieve c p else c) = c := by
      split
      · exact addToGlobalSieve_full c p hlen
      · rfl
    simp only [decomposeLoop, hc1]
    split
    next => rfl
    next => exact ih _ _ _ hlen

theorem decomposeLoop_cacheInv :
    ∀ ps n fs c, CacheInv c → PsOk c ps →
      CacheInv (decomposeLoop true ps n fs c).2.2 := by
  intro ps
  induction ps with
  | nil => intro n fs c hc _; exact hc
  | cons p ps ih =>
    intro n fs c hc hps
    rcases Nat.lt_or_ge c.length globalSieveMaxSize with hlen | hlen
    · obtain ⟨hsort, hprimes, hmiss, hsize⟩ := hc
      obtain ⟨hpsort, hpprime, hpmiss⟩ := hps
      have hp : Nat.Prime p := hpprime p (List.mem_cons_self _ _)
      by_cases hin : inGlobalSieve c p = true
      · have hmem : p ∈ c := (inGlobalSieve_iff c hsort p).mp hin
        have hstep : (if true && !(inGlobalSieve c p) then addToGlobalSieve c p else c) = c := by
          rw [hin]
          rfl
        have hps1 : PsOk c ps := by
          refine ⟨hpsort.of_cons, fun q hq => hpprime q (List.mem_cons_of_mem _ hq), ?_⟩
          intro q hq hqc
          rcases hpmiss q hq hqc with hql | hqr
          · rcases List.mem_cons.mp hql with rfl | hql2
            · exact absurd hmem hqc
            · exact Or.inl hql2
          · exact Or.inr fun x hx => hqr x (List.mem_cons_of_mem _ hx)
        simp only [decomposeLoop, hstep]
        split
        next => exact ⟨hsort, hprimes, hmiss, hsize⟩
        next => exact ih _ _ _ ⟨hsort, hprimes, hmiss, hsize⟩ hps1
      · have hnotmem : p ∉ c := fun hm => hin ((inGlobalSieve_iff c hsort p).mpr hm)
        have hallfr : ∀ x ∈ c, x < p := hmiss p hp hnotmem
        have hfalse : inGlobalSieve c p = false := by
          rcases Bool.eq_false_or_eq_true (inGlobalSieve c p) with h | h
          · exact absurd h hin
          · exact h
        have hstep : (if true && !(inGlobalSieve c p) then addToGlobalSieve c p else c)
            = c ++ [p] := by
          rw [hfalse]
          show addToGlobalSieve c p = c ++ [p]
          unfold addToGlobalSieve
          rw [if_pos hlen]
        have hc1 : CacheInv (c ++ [p]) := by
          refine ⟨?_, ?_, ?_, ?_⟩
          · refine List.pairwise_append.mpr ⟨hsort, by simp, ?_⟩
            intro x hx y hy
            rw [List.mem_singleton] at hy
            subst hy
            exact hallfr x hx
          · intro x hx
            rcases List.mem_append.mp hx with h | h
            · exact hprimes x h
            · rw [List.mem_singleton] at h
              subst h
              exact hp
          · intro q hq hqnot x hx
            have hqc : q ∉ c := fun h => hqnot (List.mem_append.mpr (Or.inl h))
            have hqp : q ≠ p := fun h =>
              hqnot (List.mem_append.mpr (Or.inr (by rw [h]; simp)))
            rcases List.mem_append.mp hx with h | h
            · exact hmiss q hq hqc x h
            · rw [List.mem_singleton] at h
              subst h
              rcases hpmiss q hq hqc with hql | hqr
              · rcases List.mem_cons.mp hql with h2 | h2
                · exact absurd h2 hqp
                · exact (List.pairwise_cons.mp hpsort).1 q h2
              · exact hqr _ (List.mem_cons_self _ _)
          · rw [List.length_append, List.length_singleton]
            omega
        have hps1 : PsOk (c ++ [p]) ps := by
          refine ⟨hpsort.of_cons, fun q hq => hpprime q (List.mem_cons_of_mem _ hq), ?_⟩
          intro q hq hqnot
          have hqc : q ∉ c := fun h => hqnot (List.mem_append.mpr (Or.inl h))
          have hqp : q ≠ p := fun h =>
            hqnot (List.mem_append.mpr (Or.inr (by rw [h]; simp)))
          rcases hpmiss q hq hqc with hql | hqr
          · rcases List.mem_cons.mp hql with h2 | h2
            · exact absurd h2 hqp
            · exact Or.inl h2
          · exact Or.inr fun x hx => hqr x (List.mem_cons_of_mem _ hx)
        simp only [decomposeLoop, hstep]
        split
        next => exact hc1
        next => exact ih _ _ _ hc1 hps1
    · rw [decomposeLoop_cache_full (p :: ps) n fs c hlen]
      exact hc

theorem psOk_primesUpTo (c : List Nat) (b : Nat) :
    PsOk c (primesUpTo b) := by
  refine ⟨primesUpTo_pairwise b, fun p hp => primesUpTo_prime b p hp, ?_⟩
  intro q hq hqc
  rcases hq.eq_two_or_odd with rfl | hodd
  · exact Or.inl (List.mem_cons_self _ _)
  · rcases le_or_lt q b with hle | hgt
    · exact Or.inl ((mem_primesUpTo b q).mpr (Or.inr ⟨hq, hodd, hle⟩))
    · refine Or.inr fun p hp => ?_
      have hub : p ≤ max 2 b := primesUpTo_ub b p hp
      have h3q : 3 ≤ q := prime_odd_ge3 q hq hodd
      rcases max_choice 2 b with h | h <;> omega

theorem trialDivisionDecompose_cacheInv (c : List Nat) (n : Nat) (hc : CacheInv c) :
    CacheInv (trialDivisionDecompose c n).2 := by
  simp only [trialDivisionDecompose]
  by_cases hin : inGlobalSieve c n = true
  · have hopt : optPrimeSieve c n = (yieldTilNumber c (n + 1), false) := by
      simp [optPrimeSieve, hin]
    rw [hopt]
    simp only [decomposeLoop_cache_false]
    exact hc
  · have hfalse : inGlobalSieve c n = false := by
      rcases Bool.eq_false_or_eq_true (inGlobalSieve c n) with h | h
      · exact absurd h hin
      · exact h
    have hopt : optPrimeSieve c n = (primeSieve n, true) := by
      simp [optPrimeSieve, hfalse]
    rw [hopt]
    simp only [primeSieve_eq]
    exact decomposeLoop_cacheInv _ _ _ _ hc (psOk_primesUpTo c _)

/-! Validated entry points as state transformers -/

theorem isPrimeCall_cache (c : List Nat) (v : PyValue) : (isPrimeCall c v).1 = c := by
  unfold isPrimeCall
  cases h : checksFactorizableNumber v <;> simp

theorem decomposeCall_cacheInv (c : List Nat) (v : PyValue) (hc : CacheInv c) :
    CacheInv (decomposeCall c v).1 := by
  unfold decomposeCall
  cases h : checksFactorizableNumber v with
  | error e => exact hc
  | ok k => exact trialDivisionDecompose_cacheInv c _ hc

theorem stepOp_cacheInv (c : List Nat) (op : PyOp) (hc : CacheInv c) :
    CacheInv (stepOp c op) := by
  cases op with
  | isPrimeOp v =>
    show CacheInv (isPrimeCall c v).1
    rw [isPrimeCall_cache]
    exact hc
  | decomposeOp v => exact decomposeCall_cacheInv c v hc

theorem runOps_cacheInv (ops : List PyOp) :
    ∀ c, CacheInv c → CacheInv (runOps c ops) := by
  induction ops with
  | nil => intro c hc; exact hc
  | cons op ops ih => intro c hc; exact ih (stepOp c op) (stepOp_cacheInv c op hc)

/-! Validation behaviour -/

theorem checks_float_nonintegral (q : Rat) (hq : q.den ≠ 1) :
    checksFactorizableNumber (.float q) = .error .typeError := by
  have hne : ((pyTruncRat q : Int) : Rat) ≠ q := by
    intro h
    exact hq (by rw [← h]; exact Rat.den_intCast _)
  simp [checksFactorizableNumber, pyToInt, pyEqInt, hne]

theorem checks_str (s : String) :
    checksFactorizableNumber (.str s) = .error .typeError := by
  have hred : pyToInt (.str s) = s.toInt? := rfl
  unfold checksFactorizableNumber
  rw [hred]
  cases s.toInt? with
  | none => rfl
  | some k => rfl

theorem checks_int_le_one (k : Int) (hk : k ≤ 1) :
    checksFactorizableNumber (.int k) = .error .valueError := by
  simp [checksFactorizableNumber, pyToInt, pyEqInt, hk]

theorem checks_int_ok (k : Int) (hk : 1 < k) :
    checksFactorizableNumber (.int k) = .ok k := by
  simp [checksFactorizableNumber, pyToInt, pyEqInt]
  omega

theorem checks_float_integral (q : Rat) (hq : q.den = 1) :
    checksFactorizableNumber (.float q) = checksFactorizableNumber (.int q.num) := by
  have htr : pyTruncRat q = q.num := by
    unfold pyTruncRat
    rw [hq]
    simp
  have heq : ((q.num : Int) : Rat) = q := (Rat.den_eq_one_iff q).mp hq
  simp [checksFactorizableNumber, pyToInt, pyEqInt, htr, heq]

theorem isPrimeCall_error (c : List Nat) (v : PyValue) (e : PyError)
    (h : checksFactorizableNumber v = .error e) : isPrimeCall c v = (c, .error e) := by
  unfold isPrimeCall
  rw [h]

theorem decomposeCall_error (c : List Nat) (v : PyValue) (e : PyError)
    (h : checksFactorizableNumber v = .error e) : decomposeCall c v = (c, .error e) := by
  unfold decomposeCall
  rw [h]

theorem trialDivisionDecompose_fresh (c : List Nat) (n : Nat) (ps : List Nat)
    (h : inGlobalSieve c n = false) (hps : primeSieve n = ps) :
    trialDivisionDecompose c n =
      (if 1 < (decomposeLoop true ps n [] c).2.1 then
          addFactor (decomposeLoop true ps n [] c).1 (decomposeLoop true ps n [] c).2.1
        else (decomposeLoop true ps n [] c).1,
        (decomposeLoop true ps n [] c).2.2) := by
  have hopt : optPrimeSieve c n = (ps, true) := by
    simp [optPrimeSieve, h, hps]
  simp [trialDivisionDecompose, hopt]

/-! Claim theorems -/

/-- C1: the claim says _prime_sieve(N) yields every prime up to N.  The code
omits the final pass over the unmarked indices, so _prime_sieve(100) stops
after the primes up to the square-root bound: it returns [2, 3, 5, 7] and in
particular misses the prime 11 ≤ 100, contradicting the claim and the
docstring of the function. -/
theorem primeSieve_drops_primes :
    primeSieve 100 = [2, 3, 5, 7] ∧ Nat.Prime 11 ∧ 11 ≤ 100 ∧
      11 ∉ primeSieve 100 := by
  refine ⟨by decide, by norm_num, by norm_num, by decide⟩

set_option maxRecDepth 1000000 in
/-- C2: the claim says the trial-division fallback of is_prime tests exactly
the candidates of form 6k plus or minus 1 past the cached maximum and
answers primality correctly there.  On the initial cache (largest cached
prime 997) the fallback loop starts at 1001 and tests the residues 5 and 3
modulo 6, skipping the whole residue class 1 modulo 6; for the composite
1018081 = 1009 * 1009, whose square root 1009 exceeds 997 and whose only
prime factor is congruent to 1 modulo 6, is_prime returns true. -/
theorem isPrime_fallback_accepts_composite :
    maxGlobalSieve globalSieveInit = 997 ∧ pySqrt 1018081 = 1009 ∧
      isPrime globalSieveInit 1018081 = true ∧
      1018081 = 1009 * 1009 ∧ Nat.Prime 1009 ∧ ¬ Nat.Prime 1018081 := by
  refine ⟨by rw [globalSieveInit_eq]; decide, by decide, ?_, by norm_num, by norm_num,
    by norm_num⟩
  rw [globalSieveInit_eq]
  decide

/-- C3: multiplying the keys of decompose(n) raised to their exponents
reproduces n, for every n > 1 and every cache whose entries exceed 1 (true
of every reachable cache state). -/
theorem decompose_prod_eq (c : List Nat) (n : Nat) (h : 2 ≤ n)
    (_hc : ∀ x ∈ c, 2 ≤ x) : prodFactors (trialDivisionDecompose c n).1 = n := by
  obtain ⟨h1, h2⟩ := decomposeLoop_spec (optPrimeSieve c n).2 (optPrimeSieve c n).1 n
    [] c (by omega)
  rw [prodFactors_nil, one_mul] at h2
  simp only [trialDivisionDecompose]
  split
  next hgt =>
    rw [prodFactors_addFactor, mul_comm]
    exact h2
  next hle =>
    have hone : (decomposeLoop (optPrimeSieve c n).2 (optPrimeSieve c n).1 n [] c).2.1
        = 1 := by omega
    rw [hone, mul_one] at h2
    exact h2

theorem decompose_prod_eq_witness :
    (2 ≤ 12 ∧ (∀ x ∈ [2, 3], 2 ≤ x)) ∧
      prodFactors (trialDivisionDecompose [2, 3] 12).1 = 12 :=
  ⟨⟨by decide, by decide⟩, decompose_prod_eq [2, 3] 12 (by decide) (by decide)⟩

set_option maxRecDepth 1000000 in
/-- C4: the claim says is_prime(n) is true exactly when decompose(n) is the
singleton map with key n and exponent 1.  At the initial module state,
is_prime(1018081) returns true (the 6k-wheel bug) while decompose(1018081)
returns the correct map with the single key 1009 at exponent 2, so the
equivalence fails on the code. -/
theorem isPrime_decompose_mismatch :
    isPrime globalSieveInit 1018081 = true ∧
      (trialDivisionDecompose globalSieveInit 1018081).1 = [(1009, 2)] ∧
      (trialDivisionDecompose globalSieveInit 1018081).1 ≠ [(1018081, 1)] := by
  have hsq : pySqrt 1018082 = 1009 := by decide
  have hps : primeSieve 1018081 = primesUpTo 1009 := by
    rw [primeSieve_eq, show (1018081 + 1 : Nat) = 1018082 from rfl, hsq]
  have hin : inGlobalSieve (primesUpTo 1000) 1018081 = false := by decide
  have hdec : (trialDivisionDecompose globalSieveInit 1018081).1 = [(1009, 2)] := by
    rw [globalSieveInit_eq, trialDivisionDecompose_fresh (primesUpTo 1000) 1018081
      (primesUpTo 1009) hin hps]
    decide
  refine ⟨?_, hdec, by rw [hdec]; decide⟩
  rw [globalSieveInit_eq]
  decide

set_option maxRecDepth 1000000 in
/-- C5: the claim says _opt_prime_sieve(n) returns exactly the primes up to
n and reuses the cache whenever n is at most the cached maximum.  At the
initial state, _opt_prime_sieve(7) replays the cache past the bound and also
yields 11 > 7; _opt_prime_sieve(100) has its bound 100 below the cached
maximum 997 yet reruns the sieve (membership, not the bound, is tested) and
returns only [2, 3, 5, 7], missing the primes from 11 to 97. -/
theorem optPrimeSieve_wrong_output :
    (optPrimeSieve globalSieveInit 7).1 = [2, 3, 5, 7, 11] ∧
      optPrimeSieve globalSieveInit 100 = ([2, 3, 5, 7], true) ∧
      100 ≤ maxGlobalSieve globalSieveInit := by
  refine ⟨?_, ?_, ?_⟩ <;> rw [globalSieveInit_eq] <;> decide

/-- C6: a non-integral float raises the type error, a string that fails
integer conversion raises the type error, an integer at most 1 (given as an
int or as an integral float) raises the value error, and in every failing
case the call returns with the cache exactly as it was. -/
theorem validation_rejects_invalid (c : List Nat) :
    (∀ q : Rat, q.den ≠ 1 →
      isPrimeCall c (.float q) = (c, .error .typeError) ∧
        decomposeCall c (.float q) = (c, .error .typeError)) ∧
    (∀ s : String,
      isPrimeCall c (.str s) = (c, .error .typeError) ∧
        decomposeCall c (.str s) = (c, .error .typeError)) ∧
    (∀ k : Int, k ≤ 1 →
      isPrimeCall c (.int k) = (c, .error .valueError) ∧
        decomposeCall c (.int k) = (c, .error .valueError)) ∧
    (∀ q : Rat, q.den = 1 → q.num ≤ 1 →
      isPrimeCall c (.float q) = (c, .error .valueError) ∧
        decomposeCall c (.float q) = (c, .error .valueError)) := by
  refine ⟨?_, ?_, ?_, ?_⟩
  · intro q hq
    exact ⟨isPrimeCall_error c _ _ (checks_float_nonintegral q hq),
      decomposeCall_error c _ _ (checks_float_nonintegral q hq)⟩
  · intro s
    exact ⟨isPrimeCall_error c _ _ (checks_str s),
      decomposeCall_error c _ _ (checks_str s)⟩
  · intro k hk
    exact ⟨isPrimeCall_error c _ _ (checks_int_le_one k hk),
      decomposeCall_error c _ _ (checks_int_le_one k hk)⟩
  · intro q hq hnum
    have h : checksFactorizableNumber (.float q) = .error .valueError := by
      rw [checks_float_integral q hq]
      exact checks_int_le_one q.num hnum
    exact ⟨isPrimeCall_error c _ _ h, decomposeCall_error c _ _ h⟩

theorem validation_rejects_invalid_witness :
    isPrimeCall [2, 3] (.float (mkRat 7 2)) = ([2, 3], .error .typeError) ∧
      isPrimeCall [2, 3] (.int 0) = ([2, 3], .error .valueError) ∧
      decomposeCall [2, 3] (.float 1) = ([2, 3], .error .valueError) :=
  ⟨((validation_rejects_invalid [2, 3]).1 (mkRat 7 2) (by decide)).1,
    ((validation_rejects_invalid [2, 3]).2.2.1 0 (by decide)).1,
    ((validation_rejects_invalid [2, 3]).2.2.2 1 (by decide) (by decide)).2⟩

/-- C7: after any sequence of is_prime and decompose calls starting from the
initial module state, the cache is strictly increasing, duplicate-free, and
never longer than its configured capacity. -/
theorem cache_invariant_after_ops (ops : List PyOp) :
    (runOps globalSieveInit ops).Pairwise (· < ·) ∧
      (runOps globalSieveInit ops).Nodup ∧
      (runOps globalSieveInit ops).length ≤ globalSieveMaxSize := by
  obtain ⟨h1, _, _, h4⟩ := runOps_cacheInv ops globalSieveInit cacheInv_init
  exact ⟨h1, h1.imp fun hab => Nat.ne_of_lt hab, h4⟩

/-- C8: an is_prime call leaves the cache exactly as it found it, for every
input value, valid or not; the source of is_prime contains no write to
_global_sieve. -/
theorem isPrime_never_mutates (c : List Nat) (v : PyValue) :
    (isPrimeCall c v).1 = c := by
  unfold isPrimeCall
  cases h : checksFactorizableNumber v <;> simp

/-- C9: every string argument is rejected with the type error: a failed
conversion raises it directly, and a successful conversion fails the
`int(number) == number` comparison because Python 2 never equates an int
with a str. -/
theorem string_inputs_rejected (c : List Nat) (s : String) :
    isPrimeCall c (.str s) = (c, .error .typeError) ∧
      decomposeCall c (.str s) = (c, .error .typeError) :=
  ⟨isPrimeCall_error c _ _ (checks_str s), decomposeCall_error c _ _ (checks_str s)⟩

/-- C10: an exactly integral float whose value exceeds 1 passes validation
with value int(x) and the call behaves exactly as on the integer itself. -/
theorem integral_float_accepted (c : List Nat) (q : Rat) (h1 : q.den = 1)
    (h2 : 1 < q.num) :
    checksFactorizableNumber (.float q) = .ok q.num ∧
      isPrimeCall c (.float q) = isPrimeCall c (.int q.num) ∧
      decomposeCall c (.float q) = decomposeCall c (.int q.num) := by
  have h := checks_float_integral q h1
  refine ⟨?_, ?_, ?_⟩
  · rw [h]
    exact checks_int_ok q.num h2
  · unfold isPrimeCall
    rw [h]
  · unfold decomposeCall
    rw [h]

theorem integral_float_accepted_witness :
    ((4 : Rat).den = 1 ∧ 1 < (4 : Rat).num) ∧
      isPrimeCall [2, 3] (.float 4) = isPrimeCall [2, 3] (.int (4 : Rat).num) :=
  ⟨⟨by decide, by decide⟩,
    (integral_float_accepted [2, 3] 4 (by decide) (by decide)).2.1⟩

end PrimeNumbers
